import Mathlib

/-!
Verification of the NCBI synonym-scraping script `scrape_ncbi_synonyms.py`
(repository gFoods).

The script's pure string manipulation, XML extraction and the row pipeline of
`main` are embedded shallowly:

* Python strings are Lean `String`s; `str.strip`, `str.lower`, `str.replace`,
  `str.endswith`, `str.rsplit(" ", 1)[0]` and slicing are modelled by
  executable functions over the underlying character lists with Python's
  semantics.
* Python dicts (the three caches, `name_candidates`) are association lists;
  a key is inserted only when absent, so keys are unique.
* parsed XML documents (`xml.etree.ElementTree` trees) are `XmlNode` trees;
  `find` / `findall` / `findtext` search direct children, as the script uses
  them with plain tag names.
* the two network helpers `search_taxid` / `fetch_synonyms_for_taxid` are
  abstracted by oracles `String → Option String` / `String → List String`
  at the points where `main` invokes them; every invocation is recorded in an
  event trace so that the caching behaviour ("at most one call per query /
  per taxid / one resolution per key") is observable.
-/

/-! ## Python string primitives -/

/-- Characters stripped by Python's `str.strip()` (whitespace). -/
def stripChars (l : List Char) : List Char :=
  ((l.dropWhile Char.isWhitespace).reverse.dropWhile Char.isWhitespace).reverse

/-- Python `s.strip()`. -/
def pyStrip (s : String) : String := String.mk (stripChars s.data)

/-- Python `s.replace("_", " ")` (the pattern is a single character). -/
def pyReplaceUnderscore (s : String) : String :=
  String.mk (s.data.map (fun c => if c = '_' then ' ' else c))

/-- Python `s.lower()`. -/
def pyLower (s : String) : String := String.mk (s.data.map Char.toLower)

/-- Python `s.endswith(suf)`. -/
def pyEndsWith (s suf : String) : Bool :=
  s.data.drop (s.data.length - suf.data.length) == suf.data

/-- Python `s[:-1]`. -/
def dropLastChar (s : String) : String := String.mk s.data.dropLast

/-- Python `s.rsplit(" ", 1)[0]`: everything before the last space,
or the whole string when it has no space. -/
def pyRsplitHead (s : String) : String :=
  match s.data.reverse.dropWhile (fun c => c ≠ ' ') with
  | [] => s
  | _ :: rest => String.mk rest.reverse

/-- Python truthiness of an `Optional[str]`: `None` and `""` are falsy. -/
def optTruthy : Option String → Bool
  | some s => s ≠ ""
  | none => false

/-- Python `"; ".join(l)`. -/
def joinSemicolon : List String → String
  | [] => ""
  | s :: rest => rest.foldl (fun acc x => acc ++ "; " ++ x) s

/-! ## Association lists standing for Python dicts -/

/-- Lookup in an association list (Python `d[k]` / `k in d`).
New bindings are consed on the front; since the pipeline only inserts a key
that is absent, there is never shadowing. -/
def alookup {α β : Type} [DecidableEq α] : α → List (α × β) → Option β
  | _, [] => none
  | a, (k, v) :: es => if a = k then some v else alookup a es

theorem alookup_cons {α β : Type} [DecidableEq α] (a k : α) (v : β) (l : List (α × β)) :
    alookup a ((k, v) :: l) = if a = k then some v else alookup a l := rfl

theorem alookup_cons_self {α β : Type} [DecidableEq α] (a : α) (v : β) (l : List (α × β)) :
    alookup a ((a, v) :: l) = some v := by simp [alookup]

theorem alookup_cons_of_none {α β : Type} [DecidableEq α] {a k : α} {w : β} {l : List (α × β)}
    (hk : alookup k l = none) {v : β} (hv : alookup a l = some v) :
    alookup a ((k, w) :: l) = some v := by
  have hak : a ≠ k := by rintro rfl; rw [hk] at hv; exact Option.noConfusion hv
  simp [alookup, hak, hv]

theorem alookup_none_of_cons_none {α β : Type} [DecidableEq α] {a k : α} {w : β}
    {l : List (α × β)} (h : alookup a ((k, w) :: l) = none) :
    alookup a l = none ∧ a ≠ k := by
  by_cases hak : a = k
  · subst hak; rw [alookup_cons_self] at h; exact absurd h (by simp)
  · rw [alookup_cons, if_neg hak] at h; exact ⟨h, hak⟩

theorem alookup_cons_ne_none {α β : Type} [DecidableEq α] {a k : α} {w : β}
    {l : List (α × β)} (h : alookup a l ≠ none) :
    alookup a ((k, w) :: l) ≠ none := by
  by_cases hak : a = k
  · subst hak; rw [alookup_cons_self]; simp
  · rw [alookup_cons, if_neg hak]; exact h

/-! ## Name normalizer (`format_scientific_name`, `format_common_name`, `build_key`) -/

/-- `format_scientific_name(name)`: `name.replace("_", " ").strip()`. -/
def format_scientific_name (name : String) : String := pyStrip (pyReplaceUnderscore name)

/-- `format_common_name(name)`: `name.replace("_", " ").strip()`. -/
def format_common_name (name : String) : String := pyStrip (pyReplaceUnderscore name)

/-- `build_key(scientific, common, fallback_index)`: the row identity key,
a pair of a variant marker and a payload, exactly as in the script. -/
def build_key (scientific common : String) (fallback_index : Nat) : String × String :=
  let sci := format_scientific_name scientific
  if sci ≠ "" then ("sci", sci)
  else
    let com := format_common_name common
    if com ≠ "" then ("com", com)
    else ("row", toString fallback_index)

/-! ## Order-preserving deduplication

`candidate_queries` deduplicates with `OrderedDict.fromkeys`, and
`extract_synonyms` with an explicit seen-dict loop.  Both are embedded as
structural folds over the value list with the accumulator playing the dict;
`dedupF`, a first-occurrence-keeping recursion, is the proof-side view. -/

/-- `list(OrderedDict.fromkeys(l))`: insert each value once, first wins. -/
def orderedDictFromKeys (l : List String) : List String :=
  l.foldl (fun acc c => if c ∈ acc then acc else acc ++ [c]) []

/-- First-occurrence-keeping deduplication, the proof-side counterpart of
`orderedDictFromKeys`. -/
def dedupF : List String → List String
  | [] => []
  | x :: xs => x :: dedupF (xs.filter (fun y => decide (y ≠ x)))
termination_by l => l.length
decreasing_by
  simp only [List.length_cons]
  exact Nat.lt_succ_of_le (List.length_filter_le _ _)

theorem dedupF_nil : dedupF [] = [] := by simp [dedupF]

theorem dedupF_cons (x : String) (xs : List String) :
    dedupF (x :: xs) = x :: dedupF (xs.filter (fun y => decide (y ≠ x))) := by
  simp [dedupF]

theorem mem_dedupF {a : String} : ∀ {l : List String}, a ∈ dedupF l ↔ a ∈ l := by
  have key : ∀ (n : Nat) (l : List String), l.length ≤ n → (a ∈ dedupF l ↔ a ∈ l) := by
    intro n
    induction n with
    | zero =>
      intro l hl
      rw [Nat.le_zero, List.length_eq_zero] at hl
      subst hl; simp [dedupF_nil]
    | succ n ih =>
      intro l hl
      match l with
      | [] => simp [dedupF_nil]
      | x :: xs =>
        rw [dedupF_cons]
        have hlen : (xs.filter (fun y => decide (y ≠ x))).length ≤ n :=
          le_trans (List.length_filter_le _ _) (Nat.succ_le_succ_iff.mp hl)
        constructor
        · intro h
          rcases List.mem_cons.mp h with h | h
          · exact h ▸ List.mem_cons_self _ _
          · rcases List.mem_filter.mp ((ih _ hlen).mp h) with ⟨hmem, _⟩
            exact List.mem_cons_of_mem _ hmem
        · intro h
          rcases List.mem_cons.mp h with h | h
          · exact h ▸ List.mem_cons_self _ _
          · by_cases hax : a = x
            · exact hax ▸ List.mem_cons_self _ _
            · exact List.mem_cons_of_mem _
                ((ih _ hlen).mpr (List.mem_filter.mpr ⟨h, by simpa using hax⟩))
  intro l
  exact key l.length l le_rfl

theorem nodup_dedupF : ∀ (l : List String), (dedupF l).Nodup := by
  have key : ∀ (n : Nat) (l : List String), l.length ≤ n → (dedupF l).Nodup := by
    intro n
    induction n with
    | zero =>
      intro l hl
      rw [Nat.le_zero, List.length_eq_zero] at hl
      subst hl; simp [dedupF_nil]
    | succ n ih =>
      intro l hl
      match l with
      | [] => simp [dedupF_nil]
      | x :: xs =>
        rw [dedupF_cons]
        have hlen : (xs.filter (fun y => decide (y ≠ x))).length ≤ n :=
          le_trans (List.length_filter_le _ _) (Nat.succ_le_succ_iff.mp hl)
        refine List.nodup_cons.mpr ⟨?_, ih _ hlen⟩
        intro hx
        rcases List.mem_filter.mp (mem_dedupF.mp hx) with ⟨_, hne⟩
        simp at hne
  intro l
  exact key l.length l le_rfl

/-- Position of the first occurrence of `a` in `l` (length of `l` if absent). -/
def idxOf {α : Type} [DecidableEq α] (a : α) : List α → Nat
  | [] => 0
  | x :: xs => if x = a then 0 else idxOf a xs + 1

theorem idxOf_cons_self {α : Type} [DecidableEq α] (a : α) (l : List α) :
    idxOf a (a :: l) = 0 := by simp [idxOf]

theorem idxOf_cons_ne {α : Type} [DecidableEq α] {x a : α} (h : x ≠ a) (l : List α) :
    idxOf a (x :: l) = idxOf a l + 1 := by simp [idxOf, h]

/-- Filtering a list does not change the relative order of the first
occurrences of values that survive the filter. -/
theorem idxOf_filter_lt {α : Type} [DecidableEq α] (p : α → Bool) :
    ∀ (l : List α) (a b : α), a ∈ l.filter p → b ∈ l.filter p →
      idxOf a (l.filter p) < idxOf b (l.filter p) → idxOf a l < idxOf b l := by
  intro l
  induction l with
  | nil => intro a b ha _ _; simp at ha
  | cons y ys ih =>
    intro a b ha hb hlt
    by_cases hpy : p y
    · rw [List.filter_cons_of_pos hpy] at ha hb hlt
      by_cases hya : y = a
      · subst hya
        have hyb : y ≠ b := by
          rintro rfl
          rw [idxOf_cons_self] at hlt
          exact Nat.not_lt_zero _ hlt
        rw [idxOf_cons_self, idxOf_cons_ne hyb]
        exact Nat.succ_pos _
      · have hyb : y ≠ b := by
          rintro rfl
          rw [idxOf_cons_self] at hlt
          exact Nat.not_lt_zero _ hlt
        rw [idxOf_cons_ne hya] at hlt
        rw [idxOf_cons_ne hyb] at hlt
        rw [idxOf_cons_ne hya, idxOf_cons_ne hyb]
        have ha' : a ∈ ys.filter p := by
          rcases List.mem_cons.mp ha with h | h
          · exact absurd h.symm hya
          · exact h
        have hb' : b ∈ ys.filter p := by
          rcases List.mem_cons.mp hb with h | h
          · exact absurd h.symm hyb
          · exact h
        exact Nat.succ_lt_succ (ih a b ha' hb' (Nat.lt_of_succ_lt_succ hlt))
    · rw [List.filter_cons_of_neg (by simpa using hpy)] at ha hb hlt
      have hya : y ≠ a := by
        rintro rfl
        exact hpy (by simpa using (List.mem_filter.mp ha).2)
      have hyb : y ≠ b := by
        rintro rfl
        exact hpy (by simpa using (List.mem_filter.mp hb).2)
      rw [idxOf_cons_ne hya, idxOf_cons_ne hyb]
      exact Nat.succ_lt_succ (ih a b ha hb hlt)

/-- `dedupF` keeps exactly the first occurrences: the output is ordered by the
position of the first occurrence in the input. -/
theorem pairwise_idxOf_dedupF :
    ∀ (l : List String), (dedupF l).Pairwise (fun a b => idxOf a l < idxOf b l) := by
  have key : ∀ (n : Nat) (l : List String), l.length ≤ n →
      (dedupF l).Pairwise (fun a b => idxOf a l < idxOf b l) := by
    intro n
    induction n with
    | zero =>
      intro l hl
      rw [Nat.le_zero, List.length_eq_zero] at hl
      subst hl; simp [dedupF_nil]
    | succ n ih =>
      intro l hl
      match l with
      | [] => simp [dedupF_nil]
      | x :: xs =>
        rw [dedupF_cons]
        set fxs := xs.filter (fun y => decide (y ≠ x)) with hfxs
        have hlen : fxs.length ≤ n :=
          le_trans (List.length_filter_le _ _) (Nat.succ_le_succ_iff.mp hl)
        refine List.pairwise_cons.mpr ⟨?_, ?_⟩
        · intro b hb
          have hbf : b ∈ fxs := mem_dedupF.mp hb
          have hbx : b ≠ x := by simpa using (List.mem_filter.mp hbf).2
          rw [idxOf_cons_self, idxOf_cons_ne (Ne.symm hbx)]
          exact Nat.succ_pos _
        · have hpw := ih fxs hlen
          refine List.Pairwise.imp_of_mem ?_ hpw
          intro a b ha hb hab
          have haf : a ∈ fxs := mem_dedupF.mp ha
          have hbf : b ∈ fxs := mem_dedupF.mp hb
          have hax : a ≠ x := by simpa using (List.mem_filter.mp haf).2
          have hbx : b ≠ x := by simpa using (List.mem_filter.mp hbf).2
          rw [idxOf_cons_ne (Ne.symm hax), idxOf_cons_ne (Ne.symm hbx)]
          exact Nat.succ_lt_succ (idxOf_filter_lt _ xs a b haf hbf hab)
  intro l
  exact key l.length l le_rfl

/-- The generalized-accumulator description of the `OrderedDict.fromkeys` fold. -/
theorem foldl_dedup_acc :
    ∀ (l : List String) (acc : List String),
      l.foldl (fun acc c => if c ∈ acc then acc else acc ++ [c]) acc
        = acc ++ dedupF (l.filter (fun c => decide (c ∉ acc))) := by
  intro l
  induction l with
  | nil => intro acc; simp [dedupF_nil]
  | cons v vs ih =>
    intro acc
    by_cases hv : v ∈ acc
    · rw [List.foldl_cons, if_pos hv, ih acc,
        List.filter_cons_of_neg (by simpa using hv)]
    · rw [List.foldl_cons, if_neg hv, ih (acc ++ [v]),
        List.filter_cons_of_pos (by simpa using hv), dedupF_cons]
      have hfilters :
          vs.filter (fun c => decide (c ∉ acc ++ [v]))
            = (vs.filter (fun c => decide (c ∉ acc))).filter (fun y => decide (y ≠ v)) := by
        rw [List.filter_filter]
        apply List.filter_congr
        intro c _
        by_cases hca : c ∈ acc <;> by_cases hcv : c = v <;>
          simp [hca, hcv]
      rw [hfilters, List.append_assoc]
      simp

/-- `orderedDictFromKeys` agrees with the first-occurrence dedup recursion. -/
theorem orderedDictFromKeys_eq_dedupF (l : List String) :
    orderedDictFromKeys l = dedupF l := by
  rw [orderedDictFromKeys, foldl_dedup_acc l []]
  simp only [List.nil_append]
  congr 1
  apply List.filter_eq_self.mpr
  intro a _
  simp

/-! ## Query candidate generator (`candidate_queries`) -/

/-- The species-placeholder test of `candidate_queries`:
`lower.endswith(" sp.") or lower.endswith(" sp") or lower.endswith(" spp.") or lower.endswith(" spp")`. -/
def speciesSuffixCond (sci : String) : Bool :=
  pyEndsWith (pyLower sci) " sp." || pyEndsWith (pyLower sci) " sp"
    || pyEndsWith (pyLower sci) " spp." || pyEndsWith (pyLower sci) " spp"

/-- The `candidates` list of `candidate_queries` before the final
filter-and-deduplicate step, in exactly the order the script appends:
cleaned scientific name, trailing-period-stripped form, species-suffix-stripped
form, cleaned common name. -/
def rawCandidates (scientific common : String) : List String :=
  (if format_scientific_name scientific ≠ "" then
    [format_scientific_name scientific]
      ++ (if pyEndsWith (format_scientific_name scientific) "." then
            [dropLastChar (format_scientific_name scientific)] else [])
      ++ (if speciesSuffixCond (format_scientific_name scientific) then
            [pyRsplitHead (format_scientific_name scientific)] else [])
   else [])
  ++ (if format_common_name common ≠ "" then [format_common_name common] else [])

/-- `candidate_queries(scientific, common)`:
`list(OrderedDict.fromkeys([c for c in candidates if c]))`. -/
def candidate_queries (scientific common : String) : List String :=
  orderedDictFromKeys ((rawCandidates scientific common).filter (fun c => decide (c ≠ "")))

/-! ## Idempotence of `pyStrip` (needed to relate the two trim passes of
`extract_synonyms`) -/

theorem dropWhile_fix_head {p : Char → Bool} {a : Char} {l : List Char}
    (h : List.dropWhile p (a :: l) = a :: l) : p a = false := by
  by_cases hpa : p a
  · rw [List.dropWhile_cons, if_pos hpa] at h
    have hle : (List.dropWhile p l).length ≤ l.length :=
      (List.dropWhile_suffix p).length_le
    rw [h] at hle
    exact absurd hle (by simp [Nat.lt_irrefl])
  · simpa using hpa

theorem dropWhile_append_single (p : Char → Bool) (l : List Char) (a : Char) :
    List.dropWhile p (l ++ [a])
      = if List.dropWhile p l = [] then (if p a then [] else [a])
        else List.dropWhile p l ++ [a] := by
  induction l with
  | nil => simp [List.dropWhile_cons]
  | cons x xs ih =>
    by_cases hpx : p x
    · rw [List.cons_append, List.dropWhile_cons, if_pos hpx, ih,
        List.dropWhile_cons, if_pos hpx]
    · rw [List.cons_append, List.dropWhile_cons, if_neg hpx,
        List.dropWhile_cons, if_neg hpx, if_neg (by simp)]
      simp

theorem dropWhile_strip_rev {p : Char → Bool} {m : List Char}
    (hm : List.dropWhile p m = m) :
    List.dropWhile p ((List.dropWhile p m.reverse).reverse)
      = (List.dropWhile p m.reverse).reverse := by
  match m with
  | [] => simp
  | a :: as =>
    have hpa : p a = false := dropWhile_fix_head hm
    rw [List.reverse_cons, dropWhile_append_single]
    by_cases hD : List.dropWhile p as.reverse = []
    · rw [if_pos hD, if_neg (by simp [hpa])]
      simp [List.dropWhile_cons, hpa]
    · rw [if_neg hD, List.reverse_append, List.reverse_singleton,
        List.singleton_append, List.dropWhile_cons, if_neg (by simp [hpa])]

theorem stripChars_idem (l : List Char) : stripChars (stripChars l) = stripChars l := by
  have hm : List.dropWhile Char.isWhitespace (List.dropWhile Char.isWhitespace l)
      = List.dropWhile Char.isWhitespace l := List.dropWhile_idempotent _ _
  have hfix := dropWhile_strip_rev hm
  show ((List.dropWhile Char.isWhitespace (stripChars l)).reverse.dropWhile
      Char.isWhitespace).reverse = stripChars l
  have hself : List.dropWhile Char.isWhitespace (stripChars l) = stripChars l := hfix
  rw [hself]
  show (List.dropWhile Char.isWhitespace
      ((List.dropWhile Char.isWhitespace
        (List.dropWhile Char.isWhitespace l).reverse).reverse.reverse)).reverse
    = stripChars l
  rw [List.reverse_reverse, List.dropWhile_idempotent]
  show stripChars l = stripChars l
  rfl

theorem pyStrip_idem (s : String) : pyStrip (pyStrip s) = pyStrip s := by
  show String.mk (stripChars (stripChars s.data)) = String.mk (stripChars s.data)
  rw [stripChars_idem]

theorem pyStrip_empty : pyStrip "" = "" := rfl

/-! ## XML trees and the response parsers -/

/-- A parsed XML element: tag, optional text content, list of children
(`xml.etree.ElementTree.Element`). -/
inductive XmlNode : Type where
  | node (tag : String) (text : Option String) (children : List XmlNode)

/-- Tag of an element. -/
def XmlNode.tag : XmlNode → String
  | .node t _ _ => t

/-- `elem.text`. -/
def XmlNode.text : XmlNode → Option String
  | .node _ tx _ => tx

/-- Direct children of an element. -/
def XmlNode.children : XmlNode → List XmlNode
  | .node _ _ cs => cs

/-- `elem.find(tag)`: first direct child with the given tag, or `None`. -/
def findChild (n : XmlNode) (tag : String) : Option XmlNode :=
  n.children.find? (fun c => c.tag == tag)

/-- `elem.findall(tag)`: all direct children with the given tag, in order. -/
def findall (n : XmlNode) (tag : String) : List XmlNode :=
  n.children.filter (fun c => c.tag == tag)

/-- `elem.findtext(tag)`: text of the first matching child (the empty string
when that child has no text), or `None` when there is no such child. -/
def findtext (n : XmlNode) (tag : String) : Option String :=
  (findChild n tag).map (fun c => c.text.getD "")

/-- The loop of `search_taxid` over `id_list.findall("Id")`: return the first
id element with truthy text, stripped. -/
def firstIdText : List XmlNode → Option String
  | [] => none
  | e :: es =>
    match e.text with
    | some t => if t ≠ "" then some (pyStrip t) else firstIdText es
    | none => firstIdText es

/-- The XML-handling tail of `search_taxid` (lines after a successful HTTP
response): find `IdList`, return `None` if absent, else the first truthy
`Id` text. -/
def search_taxid_parse (root : XmlNode) : Option String :=
  match findChild root "IdList" with
  | none => none
  | some id_list => firstIdText (findall id_list "Id")

/-- The fixed synonym field kinds of `extract_synonyms`, in source order. -/
def synonym_tags : List String :=
  ["Synonym", "EquivalentName", "GenbankSynonym", "GenbankCommonName", "CommonName"]

/-- Per-element body of the first collection loop of `extract_synonyms`:
`text = elem.text.strip() if elem.text else ""` followed by
`if text: values.append(text)`. -/
def tagValueFun (elem : XmlNode) : Option String :=
  let text :=
    match elem.text with
    | some t => if t ≠ "" then pyStrip t else ""
    | none => ""
  if text ≠ "" then some text else none

/-- The first collection loop of `extract_synonyms` for one tag. -/
def tagValues (other_names : XmlNode) (tag : String) : List String :=
  (findall other_names tag).filterMap tagValueFun

/-- Per-element body of the second collection loop of `extract_synonyms`:
`disp = name_elem.findtext("DispName"); if disp: values.append(disp.strip())`.
Note the truthiness test is on the unstripped text, so whitespace-only display
names contribute an empty string here (removed later by the dedup loop). -/
def nameDispFun (name_elem : XmlNode) : Option String :=
  match findtext name_elem "DispName" with
  | some disp => if disp ≠ "" then some (pyStrip disp) else none
  | none => none

/-- The second collection loop of `extract_synonyms`. -/
def nameDispValues (other_names : XmlNode) : List String :=
  (findall other_names "Name").filterMap nameDispFun

/-- The final dedup loop of `extract_synonyms`: an `OrderedDict` of
`value.strip()` for nonempty stripped values, first occurrence wins. -/
def dedupCleanLoop (values : List String) : List String :=
  values.foldl (fun ordered value =>
    let cleaned := pyStrip value
    if cleaned ≠ "" ∧ cleaned ∉ ordered then ordered ++ [cleaned] else ordered) []

/-- `extract_synonyms(xml_text)` on the parsed document root. -/
def extract_synonyms (root : XmlNode) : List String :=
  match findChild root "Taxon" with
  | none => []
  | some taxon =>
    match findChild taxon "OtherNames" with
    | none => []
    | some other_names =>
      let values :=
        (synonym_tags.flatMap (fun tag => tagValues other_names tag))
          ++ nameDispValues other_names
      dedupCleanLoop values

/-! ## Spec-side description of `extract_synonyms` (for the refinement claim):
collect the raw text values in the fixed field-kind order, then trim, drop
empties and deduplicate keeping first occurrences. -/

/-- Trim every value and drop the empty ones. -/
def cleanList (values : List String) : List String :=
  (values.map pyStrip).filter (fun c => decide (c ≠ ""))

/-- Raw text values of the alternate-names section in the fixed field-kind
order: the five synonym-bearing tags, then the display names of `Name`
entries. -/
def collectRawTexts (other_names : XmlNode) : List String :=
  (synonym_tags.flatMap (fun tag => (findall other_names tag).filterMap XmlNode.text))
    ++ ((findall other_names "Name").filterMap (fun name_elem => findtext name_elem "DispName"))

/-- Spec-side synonym extraction: locate the taxon record and its
alternate-names section (empty result when either is absent), collect the raw
texts in field-kind order, trim, drop empties, dedup keeping first
occurrences. -/
def extractSynonymsSpec (root : XmlNode) : List String :=
  match findChild root "Taxon" with
  | none => []
  | some taxon =>
    match findChild taxon "OtherNames" with
    | none => []
    | some other_names => orderedDictFromKeys (cleanList (collectRawTexts other_names))

/-! ## Bridging lemmas for the `extract_synonyms` refinement -/

theorem cleanList_append (a b : List String) :
    cleanList (a ++ b) = cleanList a ++ cleanList b := by
  simp [cleanList]

theorem dedupCleanLoop_acc :
    ∀ (values : List String) (acc : List String),
      values.foldl (fun ordered value =>
          let cleaned := pyStrip value
          if cleaned ≠ "" ∧ cleaned ∉ ordered then ordered ++ [cleaned] else ordered) acc
        = acc ++ dedupF ((cleanList values).filter (fun c => decide (c ∉ acc))) := by
  intro values
  induction values with
  | nil => intro acc; simp [cleanList, dedupF_nil]
  | cons v vs ih =>
    intro acc
    rw [List.foldl_cons]
    show List.foldl _ (if pyStrip v ≠ "" ∧ pyStrip v ∉ acc then acc ++ [pyStrip v] else acc) vs
      = acc ++ dedupF ((cleanList (v :: vs)).filter (fun c => decide (c ∉ acc)))
    by_cases hv : pyStrip v = ""
    · rw [if_neg (by simp [hv]), ih acc]
      have : cleanList (v :: vs) = cleanList vs := by
        simp [cleanList, hv]
      rw [this]
    · have hclean : cleanList (v :: vs) = pyStrip v :: cleanList vs := by
        simp [cleanList, hv]
      by_cases hmem : pyStrip v ∈ acc
      · rw [if_neg (by simp [hmem]), ih acc, hclean,
          List.filter_cons_of_neg (by simpa using hmem)]
      · rw [if_pos ⟨hv, hmem⟩, ih (acc ++ [pyStrip v]), hclean,
          List.filter_cons_of_pos (by simpa using hmem), dedupF_cons]
        have hfilters :
            (cleanList vs).filter (fun c => decide (c ∉ acc ++ [pyStrip v]))
              = ((cleanList vs).filter (fun c => decide (c ∉ acc))).filter
                  (fun y => decide (y ≠ pyStrip v)) := by
          rw [List.filter_filter]
          apply List.filter_congr
          intro c _
          by_cases hca : c ∈ acc <;> by_cases hcv : c = pyStrip v <;>
            simp [hca, hcv]
        rw [hfilters, List.append_assoc]
        simp

/-- The final loop of `extract_synonyms` equals trim-filter-dedup. -/
theorem dedupCleanLoop_eq (values : List String) :
    dedupCleanLoop values = dedupF (cleanList values) := by
  rw [dedupCleanLoop, dedupCleanLoop_acc values []]
  simp only [List.nil_append]
  congr 1
  apply List.filter_eq_self.mpr
  intro a _
  simp

theorem cleanList_tagValues (elems : List XmlNode) :
    cleanList (elems.filterMap tagValueFun)
      = cleanList (elems.filterMap XmlNode.text) := by
  induction elems with
  | nil => rfl
  | cons e es ih =>
    match he : e.text with
    | none =>
      rw [List.filterMap_cons, List.filterMap_cons, he]
      have : tagValueFun e = none := by simp [tagValueFun, he]
      rw [this]
      exact ih
    | some t =>
      rw [List.filterMap_cons, List.filterMap_cons, he]
      by_cases ht : t = ""
      · have : tagValueFun e = none := by simp [tagValueFun, he, ht, pyStrip_empty]
        rw [this]
        have : cleanList (t :: es.filterMap XmlNode.text)
            = cleanList (es.filterMap XmlNode.text) := by
          simp [cleanList, ht, pyStrip_empty]
        rw [this]
        exact ih
      · by_cases hst : pyStrip t = ""
        · have : tagValueFun e = none := by simp [tagValueFun, he, ht, hst]
          rw [this]
          have : cleanList (t :: es.filterMap XmlNode.text)
              = cleanList (es.filterMap XmlNode.text) := by
            simp [cleanList, hst]
          rw [this]
          exact ih
        · have : tagValueFun e = some (pyStrip t) := by simp [tagValueFun, he, ht, hst]
          rw [this]
          have h1 : cleanList (pyStrip t :: es.filterMap tagValueFun)
              = pyStrip t :: cleanList (es.filterMap tagValueFun) := by
            simp [cleanList, pyStrip_idem, hst]
          have h2 : cleanList (t :: es.filterMap XmlNode.text)
              = pyStrip t :: cleanList (es.filterMap XmlNode.text) := by
            simp [cleanList, hst]
          rw [h1, h2, ih]

theorem cleanList_nameDisp (elems : List XmlNode) :
    cleanList (elems.filterMap nameDispFun)
      = cleanList (elems.filterMap (fun name_elem => findtext name_elem "DispName")) := by
  induction elems with
  | nil => rfl
  | cons e es ih =>
    match he : findtext e "DispName" with
    | none =>
      rw [List.filterMap_cons, List.filterMap_cons, he]
      have : nameDispFun e = none := by simp [nameDispFun, he]
      rw [this]
      exact ih
    | some d =>
      rw [List.filterMap_cons, List.filterMap_cons, he]
      by_cases hd : d = ""
      · have : nameDispFun e = none := by simp [nameDispFun, he, hd]
        rw [this]
        have : cleanList (d :: es.filterMap (fun name_elem => findtext name_elem "DispName"))
            = cleanList (es.filterMap (fun name_elem => findtext name_elem "DispName")) := by
          simp [cleanList, hd, pyStrip_empty]
        rw [this]
        exact ih
      · have : nameDispFun e = some (pyStrip d) := by simp [nameDispFun, he, hd]
        rw [this]
        by_cases hsd : pyStrip d = ""
        · have h1 : cleanList (pyStrip d :: es.filterMap nameDispFun)
              = cleanList (es.filterMap nameDispFun) := by
            simp [cleanList, hsd, pyStrip_idem, pyStrip_empty]
          have h2 : cleanList (d :: es.filterMap (fun name_elem => findtext name_elem "DispName"))
              = cleanList (es.filterMap (fun name_elem => findtext name_elem "DispName")) := by
            simp [cleanList, hsd]
          rw [h1, h2, ih]
        · have h1 : cleanList (pyStrip d :: es.filterMap nameDispFun)
              = pyStrip d :: cleanList (es.filterMap nameDispFun) := by
            simp [cleanList, pyStrip_idem, hsd]
          have h2 : cleanList (d :: es.filterMap (fun name_elem => findtext name_elem "DispName"))
              = pyStrip d :: cleanList (es.filterMap (fun name_elem => findtext name_elem "DispName")) := by
            simp [cleanList, hsd]
          rw [h1, h2, ih]

theorem cleanList_flatMap (f : String → List String) (l : List String) :
    cleanList (l.flatMap f) = l.flatMap (fun x => cleanList (f x)) := by
  induction l with
  | nil => rfl
  | cons x xs ih =>
    rw [List.flatMap_cons, List.flatMap_cons, cleanList_append, ih]

/-- `extract_synonyms` implements the spec-side description: collect raw texts
in the fixed field-kind order, trim, drop empties, dedup keeping first
occurrences. -/
theorem extract_synonyms_eq_spec (root : XmlNode) :
    extract_synonyms root = extractSynonymsSpec root := by
  rcases htx : findChild root "Taxon" with _ | taxon
  · simp only [extract_synonyms, extractSynonymsSpec, htx]
  · rcases hon : findChild taxon "OtherNames" with _ | other_names
    · simp only [extract_synonyms, extractSynonymsSpec, htx, hon]
    · simp only [extract_synonyms, extractSynonymsSpec, htx, hon]
      rw [dedupCleanLoop_eq, orderedDictFromKeys_eq_dedupF]
      congr 1
      rw [collectRawTexts, cleanList_append, cleanList_append,
        cleanList_flatMap, cleanList_flatMap]
      have htags : (fun tag => cleanList (tagValues other_names tag))
          = (fun tag => cleanList ((findall other_names tag).filterMap XmlNode.text)) :=
        funext (fun tag => cleanList_tagValues (findall other_names tag))
      rw [show nameDispValues other_names = (findall other_names "Name").filterMap nameDispFun from rfl,
        cleanList_nameDisp]
      exact congrArg (fun g => synonym_tags.flatMap g
        ++ cleanList ((findall other_names "Name").filterMap
            (fun name_elem => findtext name_elem "DispName"))) htags

/-- The output of `extract_synonyms` never contains duplicates. -/
theorem extract_synonyms_nodup (root : XmlNode) : (extract_synonyms root).Nodup := by
  rcases htx : findChild root "Taxon" with _ | taxon
  · simp only [extract_synonyms, htx]
    exact List.nodup_nil
  · rcases hon : findChild taxon "OtherNames" with _ | other_names
    · simp only [extract_synonyms, htx, hon]
      exact List.nodup_nil
    · simp only [extract_synonyms, htx, hon]
      rw [dedupCleanLoop_eq]
      exact nodup_dedupF _

/-! ## The row pipeline of `main`

The CSV is abstracted as optional header list plus rows; a row is an
association list from column name to field value. The network is abstracted
by a search oracle (full behaviour of `search_taxid`, `None` covering both
"no hit" and a logged transport failure) and a fetch oracle (full behaviour
of `fetch_synonyms_for_taxid`). Every oracle invocation and every entry into
the key-resolution branch is recorded as an event. -/

/-- A CSV row: column name to field value. -/
abbrev Row := List (String × String)

/-- Python `row.get(field, "")`. -/
def pyGet (row : Row) (field : String) : String := (alookup field row).getD ""

/-- Observable pipeline events: a `search_taxid` call, a
`fetch_synonyms_for_taxid` call, and entry into the resolution branch for an
identity key. -/
inductive NetEvent : Type where
  | search (query : String)
  | fetch (taxid : String)
  | resolve (key : String × String)
deriving DecidableEq

/-- The search queries of a trace. -/
def searchesOf (tr : List NetEvent) : List String :=
  tr.filterMap (fun e =>
    match e with
    | .search q => some q
    | _ => none)

/-- The fetched taxids of a trace. -/
def fetchesOf (tr : List NetEvent) : List String :=
  tr.filterMap (fun e =>
    match e with
    | .fetch t => some t
    | _ => none)

/-- The resolved identity keys of a trace. -/
def resolvesOf (tr : List NetEvent) : List (String × String) :=
  tr.filterMap (fun e =>
    match e with
    | .resolve k => some k
    | _ => none)

/-- Mutable state of the main loop: the three caches, the event trace and the
output rows accumulated so far. -/
structure PipeState : Type where
  query_cache : List (String × Option String)
  taxid_cache : List ((String × String) × Option String)
  synonym_cache : List (String × String)
  trace : List NetEvent
  updated_rows : List Row

/-- Initial state: all caches empty. -/
def initState : PipeState := ⟨[], [], [], [], []⟩

/-- The candidate loop of `main` (`for query in queries: ...`), with `taxid`
the loop-carried value (initially `None`): uncached queries are searched and
cached, and the loop breaks at the first truthy taxid. Returns the updated
query cache, the final `taxid` and the search events issued. -/
def resolveLoop (search : String → Option String) :
    List String → List (String × Option String) → Option String →
      List (String × Option String) × Option String × List NetEvent
  | [], qc, taxid => (qc, taxid, [])
  | q :: rest, qc, _ =>
    match alookup q qc with
    | some cached =>
      if optTruthy cached then (qc, cached, [])
      else resolveLoop search rest qc cached
    | none =>
      let result := search q
      let qc1 := (q, result) :: qc
      if optTruthy result then (qc1, result, [NetEvent.search q])
      else
        let r := resolveLoop search rest qc1 result
        (r.1, r.2.1, NetEvent.search q :: r.2.2)

/-- The key-resolution step of `main`: reuse the key-level cache when the key
is present, otherwise run the candidate loop (a "resolution sequence",
recorded as a `resolve` event). -/
def resolvePart (search : String → Option String)
    (nc : List ((String × String) × List String))
    (qc : List (String × Option String))
    (tc : List ((String × String) × Option String)) (key : String × String) :
    List (String × Option String) × Option String × List NetEvent :=
  match alookup key tc with
  | some cached => (qc, cached, [])
  | none =>
    let r := resolveLoop search ((alookup key nc).getD []) qc none
    (r.1, r.2.1, NetEvent.resolve key :: r.2.2)

/-- `taxid_cache[key] = taxid` — executed only when the key was absent. -/
def updateTaxidCache (tc : List ((String × String) × Option String))
    (key : String × String) (taxid : Option String) :
    List ((String × String) × Option String) :=
  match alookup key tc with
  | some _ => tc
  | none => (key, taxid) :: tc

/-- The synonym-fetch step of `main`: when the taxid is truthy, fetch and
cache the joined synonym string unless already cached; otherwise the output
field stays empty. -/
def fetchStep (fetch : String → List String) (sc : List (String × String))
    (taxid : Option String) : List (String × String) × String × List NetEvent :=
  if optTruthy taxid then
    let t := taxid.getD ""
    match alookup t sc with
    | some s => (sc, s, [])
    | none =>
      let joined := joinSemicolon (fetch t)
      ((t, joined) :: sc, joined, [NetEvent.fetch t])
  else (sc, "", [])

/-- The output record appended for one row: exactly six fields in source
order, the first five copied from the input row, the last computed. -/
def mkOutputRow (index_field : String) (row : Row) (synonyms_ncbi : String) : Row :=
  [(index_field, pyGet row index_field),
   ("food_com", pyGet row "food_com"),
   ("food_sci", pyGet row "food_sci"),
   ("synonyms_open_tree_of_life", pyGet row "synonyms_open_tree_of_life"),
   ("synonyms_wiki_search", pyGet row "synonyms_wiki_search"),
   ("synonyms_ncbi", synonyms_ncbi)]

/-- Identity key as computed in the pre-scan (`enumerate(rows)`, from 0). -/
def prescanKey (idxRow : Nat × Row) : String × String :=
  build_key (pyGet idxRow.2 "food_sci") (pyGet idxRow.2 "food_com") idxRow.1

/-- Identity key as computed in the main pass (`enumerate(rows, start=1)`,
then `build_key(..., idx - 1)`). -/
def mainPassKey (idxRow : Nat × Row) : String × String :=
  build_key (pyGet idxRow.2 "food_sci") (pyGet idxRow.2 "food_com") (idxRow.1 - 1)

/-- One iteration of the main row loop. -/
def processRow (search : String → Option String) (fetch : String → List String)
    (index_field : String) (nc : List ((String × String) × List String))
    (st : PipeState) (idxRow : Nat × Row) : PipeState :=
  let key := mainPassKey idxRow
  let r1 := resolvePart search nc st.query_cache st.taxid_cache key
  let tc1 := updateTaxidCache st.taxid_cache key r1.2.1
  let r2 := fetchStep fetch st.synonym_cache r1.2.1
  { query_cache := r1.1
    taxid_cache := tc1
    synonym_cache := r2.1
    trace := st.trace ++ r1.2.2 ++ r2.2.2
    updated_rows := st.updated_rows ++ [mkOutputRow index_field idxRow.2 r2.2.1] }

/-- Python `enumerate(l, start)`. -/
def pyEnumerate {α : Type} (start : Nat) : List α → List (Nat × α)
  | [] => []
  | x :: xs => (start, x) :: pyEnumerate (start + 1) xs

/-- The pre-scan of `main`: `name_candidates.setdefault(key, queries)` for
every row with a nonempty candidate list (first list per key wins). -/
def buildNameCandidates (rows : List Row) : List ((String × String) × List String) :=
  (pyEnumerate 0 rows).foldl (fun nc idxRow =>
    let key := prescanKey idxRow
    let queries := candidate_queries (pyGet idxRow.2 "food_sci") (pyGet idxRow.2 "food_com")
    if queries ≠ [] then
      match alookup key nc with
      | some _ => nc
      | none => nc ++ [(key, queries)]
    else nc) []

/-- Python `rows[:limit]` when a limit is given, `rows` otherwise.
A nonnegative limit keeps the first `n` elements; a negative one drops the
last `|n|` elements. -/
def pySliceTake (rows : List Row) : Option Int → List Row
  | none => rows
  | some n => if 0 ≤ n then rows.take n.toNat else rows.take (rows.length - (-n).toNat)

/-- `main(input_path, output_path, limit)` after the CSV has been read:
given the parsed header list (or `None`) and rows, either fail on missing
headers before any other activity, or run the pre-scan and the main loop.
Returns the event trace and either the error message or the output rows. -/
def mainModel (search : String → Option String) (fetch : String → List String)
    (headers : Option (List String)) (rows : List Row) (limit : Option Int) :
    List NetEvent × Except String (List Row) :=
  match headers with
  | none => ([], Except.error "CSV missing headers")
  | some fieldnames =>
    let index_field := fieldnames.headD ""
    let rows := pySliceTake rows limit
    let nc := buildNameCandidates rows
    let final := (pyEnumerate 1 rows).foldl (processRow search fetch index_field nc) initState
    (final.trace, Except.ok final.updated_rows)

/-! ## Trace projections -/

theorem searchesOf_nil : searchesOf [] = [] := rfl

theorem searchesOf_append (a b : List NetEvent) :
    searchesOf (a ++ b) = searchesOf a ++ searchesOf b := by
  simp [searchesOf]

theorem searchesOf_search_cons (q : String) (tr : List NetEvent) :
    searchesOf (NetEvent.search q :: tr) = q :: searchesOf tr := rfl

theorem searchesOf_resolve_cons (k : String × String) (tr : List NetEvent) :
    searchesOf (NetEvent.resolve k :: tr) = searchesOf tr := rfl

theorem fetchesOf_nil : fetchesOf [] = [] := rfl

theorem fetchesOf_append (a b : List NetEvent) :
    fetchesOf (a ++ b) = fetchesOf a ++ fetchesOf b := by
  simp [fetchesOf]

theorem fetchesOf_search_cons (q : String) (tr : List NetEvent) :
    fetchesOf (NetEvent.search q :: tr) = fetchesOf tr := rfl

theorem fetchesOf_fetch_cons (t : String) (tr : List NetEvent) :
    fetchesOf (NetEvent.fetch t :: tr) = t :: fetchesOf tr := rfl

theorem fetchesOf_resolve_cons (k : String × String) (tr : List NetEvent) :
    fetchesOf (NetEvent.resolve k :: tr) = fetchesOf tr := rfl

theorem resolvesOf_nil : resolvesOf [] = [] := rfl

theorem resolvesOf_append (a b : List NetEvent) :
    resolvesOf (a ++ b) = resolvesOf a ++ resolvesOf b := by
  simp [resolvesOf]

theorem resolvesOf_search_cons (q : String) (tr : List NetEvent) :
    resolvesOf (NetEvent.search q :: tr) = resolvesOf tr := rfl

theorem resolvesOf_fetch_cons (t : String) (tr : List NetEvent) :
    resolvesOf (NetEvent.fetch t :: tr) = resolvesOf tr := rfl

theorem resolvesOf_resolve_cons (k : String × String) (tr : List NetEvent) :
    resolvesOf (NetEvent.resolve k :: tr) = k :: resolvesOf tr := rfl

/-! ## Once-per-query behaviour of the candidate loop -/

theorem resolveLoop_spec (search : String → Option String) :
    ∀ (queries : List String) (qc : List (String × Option String)) (t0 : Option String),
      (∀ q v, alookup q qc = some v →
          alookup q (resolveLoop search queries qc t0).1 = some v)
      ∧ (searchesOf (resolveLoop search queries qc t0).2.2).Nodup
      ∧ (∀ q ∈ searchesOf (resolveLoop search queries qc t0).2.2,
          alookup q qc = none ∧ alookup q (resolveLoop search queries qc t0).1 ≠ none)
      ∧ fetchesOf (resolveLoop search queries qc t0).2.2 = []
      ∧ resolvesOf (resolveLoop search queries qc t0).2.2 = [] := by
  intro queries
  induction queries with
  | nil =>
    intro qc t0
    refine ⟨fun q v hv => hv, ?_, ?_, rfl, rfl⟩ <;> simp [resolveLoop, searchesOf_nil]
  | cons q rest ih =>
    intro qc t0
    rcases hq : alookup q qc with _ | cached
    · -- query not yet cached: a search event is issued
      by_cases ht : optTruthy (search q)
      · have hres : resolveLoop search (q :: rest) qc t0
            = ((q, search q) :: qc, search q, [NetEvent.search q]) := by
          simp [resolveLoop, hq, ht]
        rw [hres]
        refine ⟨?_, ?_, ?_, rfl, rfl⟩
        · intro q' v hv
          exact alookup_cons_of_none hq hv
        · simp [searchesOf_search_cons, searchesOf_nil]
        · intro q' hq'
          simp only [searchesOf_search_cons, searchesOf_nil, List.mem_singleton] at hq'
          subst hq'
          exact ⟨hq, by rw [alookup_cons_self]; simp⟩
      · have hres : resolveLoop search (q :: rest) qc t0
            = ((resolveLoop search rest ((q, search q) :: qc) (search q)).1,
               (resolveLoop search rest ((q, search q) :: qc) (search q)).2.1,
               NetEvent.search q
                 :: (resolveLoop search rest ((q, search q) :: qc) (search q)).2.2) := by
          simp [resolveLoop, hq, ht]
        rw [hres]
        obtain ⟨mono1, nodup1, fresh1, hf1, hr1⟩ := ih ((q, search q) :: qc) (search q)
        refine ⟨?_, ?_, ?_, ?_, ?_⟩
        · intro q' v hv
          exact mono1 q' v (alookup_cons_of_none hq hv)
        · rw [searchesOf_search_cons]
          refine List.nodup_cons.mpr ⟨?_, nodup1⟩
          intro hqmem
          have := (fresh1 q hqmem).1
          rw [alookup_cons_self] at this
          exact Option.noConfusion this
        · intro q' hq'
          rw [searchesOf_search_cons] at hq'
          rcases List.mem_cons.mp hq' with rfl | h
          · refine ⟨hq, ?_⟩
            have := mono1 q' (search q') (alookup_cons_self q' (search q') qc)
            rw [this]; simp
          · obtain ⟨hnone, hne⟩ := fresh1 q' h
            exact ⟨(alookup_none_of_cons_none hnone).1, hne⟩
        · rw [fetchesOf_search_cons]; exact hf1
        · rw [resolvesOf_search_cons]; exact hr1
    · -- query cached: no search event for it
      by_cases ht : optTruthy cached
      · have hres : resolveLoop search (q :: rest) qc t0 = (qc, cached, []) := by
          simp [resolveLoop, hq, ht]
        rw [hres]
        exact ⟨fun q' v hv => hv, by simp [searchesOf_nil],
          by simp [searchesOf_nil], rfl, rfl⟩
      · have hres : resolveLoop search (q :: rest) qc t0
            = resolveLoop search rest qc cached := by
          simp [resolveLoop, hq, ht]
        rw [hres]
        exact ih qc cached

theorem resolvePart_spec (search : String → Option String)
    (nc : List ((String × String) × List String))
    (qc : List (String × Option String))
    (tc : List ((String × String) × Option String)) (key : String × String) :
    (∀ q v, alookup q qc = some v →
        alookup q (resolvePart search nc qc tc key).1 = some v)
    ∧ (searchesOf (resolvePart search nc qc tc key).2.2).Nodup
    ∧ (∀ q ∈ searchesOf (resolvePart search nc qc tc key).2.2,
        alookup q qc = none ∧ alookup q (resolvePart search nc qc tc key).1 ≠ none)
    ∧ fetchesOf (resolvePart search nc qc tc key).2.2 = []
    ∧ (resolvesOf (resolvePart search nc qc tc key).2.2 = []
        ∨ (resolvesOf (resolvePart search nc qc tc key).2.2 = [key]
            ∧ alookup key tc = none)) := by
  rcases htc : alookup key tc with _ | cached
  · have hres : resolvePart search nc qc tc key
        = ((resolveLoop search ((alookup key nc).getD []) qc none).1,
           (resolveLoop search ((alookup key nc).getD []) qc none).2.1,
           NetEvent.resolve key
             :: (resolveLoop search ((alookup key nc).getD []) qc none).2.2) := by
      simp [resolvePart, htc]
    rw [hres]
    obtain ⟨mono1, nodup1, fresh1, hf1, hr1⟩ :=
      resolveLoop_spec search ((alookup key nc).getD []) qc none
    refine ⟨mono1, ?_, ?_, ?_, ?_⟩
    · rw [searchesOf_resolve_cons]; exact nodup1
    · intro q hqmem
      rw [searchesOf_resolve_cons] at hqmem
      exact fresh1 q hqmem
    · rw [fetchesOf_resolve_cons]; exact hf1
    · right
      rw [resolvesOf_resolve_cons, hr1]
      exact ⟨rfl, rfl⟩
  · have hres : resolvePart search nc qc tc key = (qc, cached, []) := by
      simp [resolvePart, htc]
    rw [hres]
    exact ⟨fun q v hv => hv, by simp [searchesOf_nil], by simp [searchesOf_nil],
      rfl, Or.inl rfl⟩

theorem updateTaxidCache_spec (tc : List ((String × String) × Option String))
    (key : String × String) (taxid : Option String) :
    (∀ k, alookup k tc ≠ none → alookup k (updateTaxidCache tc key taxid) ≠ none)
    ∧ alookup key (updateTaxidCache tc key taxid) ≠ none := by
  rcases htc : alookup key tc with _ | cached
  · have hres : updateTaxidCache tc key taxid = (key, taxid) :: tc := by
      simp [updateTaxidCache, htc]
    rw [hres]
    exact ⟨fun k hk => alookup_cons_ne_none hk, by rw [alookup_cons_self]; simp⟩
  · have hres : updateTaxidCache tc key taxid = tc := by
      simp [updateTaxidCache, htc]
    rw [hres]
    exact ⟨fun k hk => hk, by rw [htc]; simp⟩

theorem fetchStep_spec (fetch : String → List String) (sc : List (String × String))
    (taxid : Option String) :
    (∀ t, alookup t sc ≠ none → alookup t (fetchStep fetch sc taxid).1 ≠ none)
    ∧ (fetchesOf (fetchStep fetch sc taxid).2.2).Nodup
    ∧ (∀ t ∈ fetchesOf (fetchStep fetch sc taxid).2.2,
        alookup t sc = none ∧ alookup t (fetchStep fetch sc taxid).1 ≠ none)
    ∧ searchesOf (fetchStep fetch sc taxid).2.2 = []
    ∧ resolvesOf (fetchStep fetch sc taxid).2.2 = [] := by
  by_cases ht : optTruthy taxid
  · rcases hsc : alookup (taxid.getD "") sc with _ | s
    · have hres : fetchStep fetch sc taxid
          = ((taxid.getD "", joinSemicolon (fetch (taxid.getD ""))) :: sc,
             joinSemicolon (fetch (taxid.getD "")),
             [NetEvent.fetch (taxid.getD "")]) := by
        simp [fetchStep, ht, hsc]
      rw [hres]
      refine ⟨fun t hk => alookup_cons_ne_none hk, ?_, ?_, rfl, rfl⟩
      · simp [fetchesOf_fetch_cons, fetchesOf_nil]
      · intro t htmem
        simp only [fetchesOf_fetch_cons, fetchesOf_nil, List.mem_singleton] at htmem
        subst htmem
        exact ⟨hsc, by rw [alookup_cons_self]; simp⟩
    · have hres : fetchStep fetch sc taxid = (sc, s, []) := by
        simp [fetchStep, ht, hsc]
      rw [hres]
      exact ⟨fun t hk => hk, by simp [fetchesOf_nil], by simp [fetchesOf_nil], rfl, rfl⟩
  · have hres : fetchStep fetch sc taxid = (sc, "", []) := by
      simp [fetchStep, ht]
    rw [hres]
    exact ⟨fun t hk => hk, by simp [fetchesOf_nil], by simp [fetchesOf_nil], rfl, rfl⟩

/-- The caching invariant: every query, taxid and key appearing in the trace
appears at most once, and is present in the corresponding cache. -/
def CacheInv (st : PipeState) : Prop :=
  (searchesOf st.trace).Nodup
  ∧ (∀ q ∈ searchesOf st.trace, alookup q st.query_cache ≠ none)
  ∧ (fetchesOf st.trace).Nodup
  ∧ (∀ t ∈ fetchesOf st.trace, alookup t st.synonym_cache ≠ none)
  ∧ (resolvesOf st.trace).Nodup
  ∧ (∀ k ∈ resolvesOf st.trace, alookup k st.taxid_cache ≠ none)

theorem processRow_fields (search : String → Option String) (fetch : String → List String)
    (index_field : String) (nc : List ((String × String) × List String))
    (st : PipeState) (idxRow : Nat × Row) :
    processRow search fetch index_field nc st idxRow
      = { query_cache :=
            (resolvePart search nc st.query_cache st.taxid_cache (mainPassKey idxRow)).1
          taxid_cache :=
            updateTaxidCache st.taxid_cache (mainPassKey idxRow)
              (resolvePart search nc st.query_cache st.taxid_cache (mainPassKey idxRow)).2.1
          synonym_cache :=
            (fetchStep fetch st.synonym_cache
              (resolvePart search nc st.query_cache st.taxid_cache (mainPassKey idxRow)).2.1).1
          trace :=
            st.trace
              ++ (resolvePart search nc st.query_cache st.taxid_cache (mainPassKey idxRow)).2.2
              ++ (fetchStep fetch st.synonym_cache
                    (resolvePart search nc st.query_cache st.taxid_cache (mainPassKey idxRow)).2.1).2.2
          updated_rows :=
            st.updated_rows
              ++ [mkOutputRow index_field idxRow.2
                    (fetchStep fetch st.synonym_cache
                      (resolvePart search nc st.query_cache st.taxid_cache (mainPassKey idxRow)).2.1).2.1] } :=
  rfl

theorem processRow_inv (search : String → Option String) (fetch : String → List String)
    (index_field : String) (nc : List ((String × String) × List String))
    (st : PipeState) (idxRow : Nat × Row) (hinv : CacheInv st) :
    CacheInv (processRow search fetch index_field nc st idxRow) := by
  obtain ⟨hsN, hsC, hfN, hfC, hrN, hrC⟩ := hinv
  obtain ⟨rpMono, rpNodup, rpFresh, rpFetch, rpResolve⟩ :=
    resolvePart_spec search nc st.query_cache st.taxid_cache (mainPassKey idxRow)
  obtain ⟨fsMono, fsNodup, fsFresh, fsSearch, fsResolve⟩ :=
    fetchStep_spec fetch st.synonym_cache
      (resolvePart search nc st.query_cache st.taxid_cache (mainPassKey idxRow)).2.1
  obtain ⟨utMono, utSelf⟩ :=
    updateTaxidCache_spec st.taxid_cache (mainPassKey idxRow)
      (resolvePart search nc st.query_cache st.taxid_cache (mainPassKey idxRow)).2.1
  rw [processRow_fields]
  refine ⟨?_, ?_, ?_, ?_, ?_, ?_⟩
  · -- searches: old ++ new ++ none
    simp only [searchesOf_append, fsSearch, searchesOf_nil, List.append_nil]
    rw [List.nodup_append]
    refine ⟨hsN, rpNodup, ?_⟩
    intro q hq hq'
    exact absurd (rpFresh q hq').1 (hsC q hq)
  · intro q hq
    simp only [searchesOf_append, fsSearch, searchesOf_nil, List.append_nil,
      List.mem_append] at hq
    rcases hq with hq | hq
    · intro hcontra
      rcases Option.ne_none_iff_exists'.mp (hsC q hq) with ⟨v, hv⟩
      rw [rpMono q v hv] at hcontra
      exact Option.noConfusion hcontra
    · exact (rpFresh q hq).2
  · -- fetches: old ++ none ++ new
    simp only [fetchesOf_append, rpFetch, fetchesOf_nil, List.append_nil,
      List.nil_append]
    rw [List.nodup_append]
    refine ⟨hfN, fsNodup, ?_⟩
    intro t ht ht'
    exact absurd (fsFresh t ht').1 (hfC t ht)
  · intro t ht
    simp only [fetchesOf_append, rpFetch, fetchesOf_nil, List.append_nil,
      List.nil_append, List.mem_append] at ht
    rcases ht with ht | ht
    · exact fsMono t (hfC t ht)
    · exact (fsFresh t ht).2
  · -- resolves: old ++ (at most the key) ++ none
    simp only [resolvesOf_append, fsResolve, List.append_nil]
    rcases rpResolve with hempty | ⟨hone, hnone⟩
    · rw [hempty, List.append_nil]; exact hrN
    · rw [hone, List.nodup_append]
      refine ⟨hrN, List.nodup_singleton _, ?_⟩
      intro k hk hk'
      rw [List.mem_singleton] at hk'
      subst hk'
      exact hrC _ hk hnone
  · intro k hk
    simp only [resolvesOf_append, fsResolve, List.append_nil, List.mem_append] at hk
    rcases hk with hk | hk
    · exact utMono k (hrC k hk)
    · rcases rpResolve with hempty | ⟨hone, _⟩
      · rw [hempty] at hk; simp at hk
      · rw [hone, List.mem_singleton] at hk
        subst hk
        exact utSelf

theorem foldl_processRow_inv (search : String → Option String) (fetch : String → List String)
    (index_field : String) (nc : List ((String × String) × List String)) :
    ∀ (ps : List (Nat × Row)) (st : PipeState), CacheInv st →
      CacheInv (ps.foldl (processRow search fetch index_field nc) st) := by
  intro ps
  induction ps with
  | nil => intro st h; exact h
  | cons p ps ih =>
    intro st h
    rw [List.foldl_cons]
    exact ih _ (processRow_inv search fetch index_field nc st p h)

theorem initState_inv : CacheInv initState := by
  refine ⟨?_, ?_, ?_, ?_, ?_, ?_⟩ <;>
    simp [initState, searchesOf_nil, fetchesOf_nil, resolvesOf_nil]

theorem processRow_out (search : String → Option String) (fetch : String → List String)
    (index_field : String) (nc : List ((String × String) × List String))
    (st : PipeState) (idxRow : Nat × Row) :
    ∃ syn, (processRow search fetch index_field nc st idxRow).updated_rows
      = st.updated_rows ++ [mkOutputRow index_field idxRow.2 syn] :=
  ⟨_, rfl⟩

theorem foldl_processRow_outputs (search : String → Option String)
    (fetch : String → List String) (index_field : String)
    (nc : List ((String × String) × List String)) :
    ∀ (ps : List (Nat × Row)) (st : PipeState),
      ∃ tail, (ps.foldl (processRow search fetch index_field nc) st).updated_rows
          = st.updated_rows ++ tail
        ∧ tail.length = ps.length
        ∧ ∀ i pr, ps.get? i = some pr →
            ∃ syn, tail.get? i = some (mkOutputRow index_field pr.2 syn) := by
  intro ps
  induction ps with
  | nil =>
    intro st
    exact ⟨[], by simp, rfl, by intro i pr h; simp at h⟩
  | cons p ps ih =>
    intro st
    rw [List.foldl_cons]
    obtain ⟨syn0, hout⟩ := processRow_out search fetch index_field nc st p
    obtain ⟨tail, htail, hlen, hget⟩ := ih (processRow search fetch index_field nc st p)
    refine ⟨mkOutputRow index_field p.2 syn0 :: tail, ?_, by simp [hlen], ?_⟩
    · rw [htail, hout, List.append_assoc]
      rfl
    · intro i pr h
      match i with
      | 0 =>
        rw [List.get?_cons_zero] at h ⊢
        cases h
        exact ⟨syn0, rfl⟩
      | i + 1 =>
        rw [List.get?_cons_succ] at h ⊢
        exact hget i pr h

theorem pyEnumerate_get? {α : Type} :
    ∀ (l : List α) (start i : Nat),
      (pyEnumerate start l).get? i = (l.get? i).map (fun a => (start + i, a)) := by
  intro l
  induction l with
  | nil => intro start i; simp [pyEnumerate]
  | cons x xs ih =>
    intro start i
    match i with
    | 0 => simp [pyEnumerate]
    | i + 1 =>
      show (pyEnumerate (start + 1) xs).get? i = _
      rw [ih (start + 1) i, List.get?_cons_succ]
      have harith : start + 1 + i = start + (i + 1) := by omega
      rw [harith]

theorem pyEnumerate_length {α : Type} :
    ∀ (l : List α) (start : Nat), (pyEnumerate start l).length = l.length := by
  intro l
  induction l with
  | nil => intro start; rfl
  | cons x xs ih => intro start; simp [pyEnumerate, ih]

theorem mainModel_some (search : String → Option String) (fetch : String → List String)
    (fns : List String) (rows : List Row) (limit : Option Int) :
    mainModel search fetch (some fns) rows limit
      = (((pyEnumerate 1 (pySliceTake rows limit)).foldl
            (processRow search fetch (fns.headD "")
              (buildNameCandidates (pySliceTake rows limit))) initState).trace,
         Except.ok ((pyEnumerate 1 (pySliceTake rows limit)).foldl
            (processRow search fetch (fns.headD "")
              (buildNameCandidates (pySliceTake rows limit))) initState).updated_rows) :=
  rfl

theorem mainModel_trace_inv (search : String → Option String) (fetch : String → List String)
    (fns : List String) (rows : List Row) (limit : Option Int) :
    (searchesOf (mainModel search fetch (some fns) rows limit).1).Nodup
    ∧ (fetchesOf (mainModel search fetch (some fns) rows limit).1).Nodup
    ∧ (resolvesOf (mainModel search fetch (some fns) rows limit).1).Nodup := by
  rw [mainModel_some]
  obtain ⟨h1, _, h2, _, h3, _⟩ :=
    foldl_processRow_inv search fetch (fns.headD "")
      (buildNameCandidates (pySliceTake rows limit))
      (pyEnumerate 1 (pySliceTake rows limit)) initState initState_inv
  exact ⟨h1, h2, h3⟩

theorem mainModel_outputs (search : String → Option String) (fetch : String → List String)
    (fns : List String) (rows : List Row) (limit : Option Int) :
    ∃ outs, (mainModel search fetch (some fns) rows limit).2 = Except.ok outs
      ∧ outs.length = (pySliceTake rows limit).length
      ∧ ∀ i row, (pySliceTake rows limit).get? i = some row →
          ∃ syn, outs.get? i = some (mkOutputRow (fns.headD "") row syn) := by
  rw [mainModel_some]
  obtain ⟨tail, htail, hlen, hget⟩ :=
    foldl_processRow_outputs search fetch (fns.headD "")
      (buildNameCandidates (pySliceTake rows limit))
      (pyEnumerate 1 (pySliceTake rows limit)) initState
  refine ⟨tail, by rw [htail]; rfl, ?_, ?_⟩
  · rw [hlen, pyEnumerate_length]
  · intro i row hrow
    have henum : (pyEnumerate 1 (pySliceTake rows limit)).get? i = some (1 + i, row) := by
      rw [pyEnumerate_get?, hrow]
      rfl
    obtain ⟨syn, hsyn⟩ := hget i (1 + i, row) henum
    exact ⟨syn, hsyn⟩

/-! ## Concrete fixtures used by witnesses and counterexamples -/

/-- Search oracle that never finds an identifier. -/
def searchNone : String → Option String := fun _ => none

/-- Fetch oracle that returns no synonyms. -/
def fetchNone : String → List String := fun _ => []

/-- A row with both name fields blank. -/
def demoRowA : Row := [("idx", "0")]

/-- A second row with both name fields blank. -/
def demoRowB : Row := [("idx", "1")]

/-- A fully populated row. -/
def demoRowFull : Row :=
  [("idx", "7"), ("food_com", "tomato"), ("food_sci", "Solanum lycopersicum"),
   ("synonyms_open_tree_of_life", "x"), ("synonyms_wiki_search", "y")]

/-- An XML document with no `IdList` and no `Taxon` child. -/
def demoEmptyXml : XmlNode := XmlNode.node "eSearchResult" none []

/-- An XML document whose `Taxon` record has no `OtherNames` section. -/
def demoTaxonNoOther : XmlNode :=
  XmlNode.node "TaxaSet" none [XmlNode.node "Taxon" none []]

/-! ## The claims -/

/-- C1, counterexample: for input scientific name "Foo sp." and no common
name, the candidate list is not `["Foo sp.", "Foo"]` — contrary to the claim,
the period-stripped candidate is generated, because "Foo sp." does end with a
period. -/
theorem c1_candidate_foo_sp_counterexample :
    candidate_queries "Foo sp." "" ≠ ["Foo sp.", "Foo"] := by decide

/-- C1, amended: for input scientific name "Foo sp." with no common name, the
candidate list is exactly `["Foo sp.", "Foo sp", "Foo"]`: the name itself,
then the period-stripped form (the name ends with a period), then the
species-suffix-stripped form. -/
theorem c1_candidate_foo_sp_amended :
    candidate_queries "Foo sp." "" = ["Foo sp.", "Foo sp", "Foo"] := by decide

/-- C2: when the CSV has no headers, `main` fails with the value error
"CSV missing headers" and the event trace is empty — no network activity has
happened. -/
theorem c2_missing_headers_fatal (search : String → Option String)
    (fetch : String → List String) (rows : List Row) (limit : Option Int) :
    mainModel search fetch none rows limit = ([], Except.error "CSV missing headers") :=
  rfl

/-- C3: a missing expected XML element yields an empty result rather than an
error: search parsing returns no identifier when the `IdList` element is
absent, and synonym extraction returns the empty list when the `Taxon` record
or its `OtherNames` section is absent. -/
theorem c3_missing_xml_sections (root : XmlNode) :
    (findChild root "IdList" = none → search_taxid_parse root = none)
    ∧ (findChild root "Taxon" = none → extract_synonyms root = [])
    ∧ (∀ taxon, findChild root "Taxon" = some taxon →
        findChild taxon "OtherNames" = none → extract_synonyms root = []) := by
  refine ⟨?_, ?_, ?_⟩
  · intro h
    simp [search_taxid_parse, h]
  · intro h
    simp [extract_synonyms, h]
  · intro taxon htx hon
    simp [extract_synonyms, htx, hon]

/-- Witness for C3 at concrete XML documents. -/
theorem c3_missing_xml_sections_witness :
    search_taxid_parse demoEmptyXml = none
    ∧ extract_synonyms demoEmptyXml = []
    ∧ extract_synonyms demoTaxonNoOther = [] :=
  ⟨(c3_missing_xml_sections demoEmptyXml).1 rfl,
   (c3_missing_xml_sections demoEmptyXml).2.1 rfl,
   (c3_missing_xml_sections demoTaxonNoOther).2.2 (XmlNode.node "Taxon" none []) rfl rfl⟩

/-- C4, counterexample: with two rows and limit `-1` the pipeline still
processes one row (Python slice semantics drop the last row), although the
list of the "first -1 rows" is empty — so a negative integer limit does not
restrict processing to the first N rows. -/
theorem c4_negative_limit_counterexample :
    (mainModel searchNone fetchNone (some ["idx"]) [demoRowA, demoRowB] (some (-1))).2
      = Except.ok [mkOutputRow "idx" demoRowA ""]
    ∧ List.take ((-1 : Int)).toNat [demoRowA, demoRowB] = [] :=
  ⟨rfl, rfl⟩

/-- C4, amended: for every nonnegative integer limit `n` the pipeline
processes exactly the first `n` rows (all rows when `n` exceeds the row
count), and all rows when no limit is given; a negative limit instead keeps
all but the last `|n|` rows (Python slice semantics), as the counterexample
shows. -/
theorem c4_limit_takes_first_rows (search : String → Option String)
    (fetch : String → List String) (fns : List String) (rows : List Row)
    (n : Int) (hn : 0 ≤ n) :
    pySliceTake rows (some n) = rows.take n.toNat
    ∧ pySliceTake rows none = rows
    ∧ (∃ outs, (mainModel search fetch (some fns) rows (some n)).2 = Except.ok outs
        ∧ outs.length = (rows.take n.toNat).length)
    ∧ (∃ outs, (mainModel search fetch (some fns) rows none).2 = Except.ok outs
        ∧ outs.length = rows.length) := by
  have hslice : pySliceTake rows (some n) = rows.take n.toNat := by
    simp [pySliceTake, hn]
  refine ⟨hslice, rfl, ?_, ?_⟩
  · obtain ⟨outs, hok, hlen, _⟩ := mainModel_outputs search fetch fns rows (some n)
    exact ⟨outs, hok, by rw [hlen, hslice]⟩
  · obtain ⟨outs, hok, hlen, _⟩ := mainModel_outputs search fetch fns rows none
    exact ⟨outs, hok, hlen⟩

/-- Witness for C4 at limit 1 over two rows. -/
theorem c4_limit_takes_first_rows_witness :
    (0 : Int) ≤ 1 ∧ pySliceTake [demoRowA, demoRowB] (some 1) = [demoRowA] :=
  ⟨by decide,
   ((c4_limit_takes_first_rows searchNone fetchNone ["idx"] [demoRowA, demoRowB] 1
      (by decide)).1).trans (by decide)⟩

/-- C5: in any run, each distinct query string is searched at most once, each
taxonomy identifier is fetched at most once, and each identity key enters the
resolution branch at most once — the trace projections contain no
duplicates. -/
theorem c5_caches_prevent_repeat_calls (search : String → Option String)
    (fetch : String → List String) (fns : List String) (rows : List Row)
    (limit : Option Int) :
    (searchesOf (mainModel search fetch (some fns) rows limit).1).Nodup
    ∧ (fetchesOf (mainModel search fetch (some fns) rows limit).1).Nodup
    ∧ (resolvesOf (mainModel search fetch (some fns) rows limit).1).Nodup :=
  mainModel_trace_inv search fetch fns rows limit

/-- C6: `build_key` returns the scientific variant exactly when the cleaned
scientific name is nonempty (whatever the common name is), else the common
variant when the cleaned common name is nonempty, and the row-index variant
only when both cleaned names are empty. -/
theorem c6_build_key_variants (s c : String) (i : Nat) :
    (format_scientific_name s ≠ "" → build_key s c i = ("sci", format_scientific_name s))
    ∧ (format_scientific_name s = "" → format_common_name c ≠ "" →
        build_key s c i = ("com", format_common_name c))
    ∧ (format_scientific_name s = "" → format_common_name c = "" →
        build_key s c i = ("row", toString i))
    ∧ ((build_key s c i).1 = "row" →
        format_scientific_name s = "" ∧ format_common_name c = "") := by
  refine ⟨?_, ?_, ?_, ?_⟩
  · intro hs
    simp [build_key, hs]
  · intro hs hc
    simp [build_key, hs, hc]
  · intro hs hc
    simp [build_key, hs, hc]
  · intro hrow
    by_cases hs : format_scientific_name s = ""
    · by_cases hc : format_common_name c = ""
      · exact ⟨hs, hc⟩
      · rw [show build_key s c i = ("com", format_common_name c) by simp [build_key, hs, hc]]
          at hrow
        exact absurd hrow (by simp)
    · rw [show build_key s c i = ("sci", format_scientific_name s) by simp [build_key, hs]]
        at hrow
      exact absurd hrow (by simp)

/-- Witness for C6 at concrete names covering all three variants. -/
theorem c6_build_key_variants_witness :
    build_key "Malus" "apple" 0 = ("sci", "Malus")
    ∧ build_key "" "apple" 1 = ("com", "apple")
    ∧ build_key "" "" 2 = ("row", "2")
    ∧ (format_scientific_name "" = "" ∧ format_common_name "" = "") :=
  ⟨(c6_build_key_variants "Malus" "apple" 0).1 (by decide),
   (c6_build_key_variants "" "apple" 1).2.1 (by decide) (by decide),
   (c6_build_key_variants "" "" 2).2.2.1 (by decide) (by decide),
   (c6_build_key_variants "" "" 2).2.2.2 (by decide)⟩

/-- C7: the candidate list never contains duplicates or empty strings, its
deduplication keeps first occurrences in their original relative order, a
string appears in it exactly when it is a nonempty generated candidate, and
it is empty when both raw names are empty. -/
theorem c7_candidate_queries_props (s c : String) :
    (candidate_queries s c).Nodup
    ∧ (∀ q ∈ candidate_queries s c, q ≠ "")
    ∧ (candidate_queries s c).Pairwise
        (fun a b => idxOf a (rawCandidates s c) < idxOf b (rawCandidates s c))
    ∧ (∀ q, q ∈ candidate_queries s c ↔ q ∈ rawCandidates s c ∧ q ≠ "")
    ∧ (s = "" → c = "" → candidate_queries s c = []) := by
  have hdef : candidate_queries s c
      = dedupF ((rawCandidates s c).filter (fun q => decide (q ≠ ""))) := by
    rw [candidate_queries, orderedDictFromKeys_eq_dedupF]
  refine ⟨?_, ?_, ?_, ?_, ?_⟩
  · rw [hdef]; exact nodup_dedupF _
  · intro q hq
    rw [hdef] at hq
    have := (List.mem_filter.mp (mem_dedupF.mp hq)).2
    simpa using this
  · rw [hdef]
    have hpw := pairwise_idxOf_dedupF ((rawCandidates s c).filter (fun q => decide (q ≠ "")))
    refine List.Pairwise.imp_of_mem ?_ hpw
    intro a b ha hb hab
    exact idxOf_filter_lt _ (rawCandidates s c) a b
      (mem_dedupF.mp ha) (mem_dedupF.mp hb) hab
  · intro q
    rw [hdef]
    constructor
    · intro hq
      have h := List.mem_filter.mp (mem_dedupF.mp hq)
      exact ⟨h.1, by simpa using h.2⟩
    · intro ⟨h1, h2⟩
      exact mem_dedupF.mpr (List.mem_filter.mpr ⟨h1, by simpa using h2⟩)
  · intro hs hc
    subst hs; subst hc
    decide

/-- Witness for C7: empty names yield no candidates, and "Foo" is a nonempty
candidate for "Foo sp.". -/
theorem c7_candidate_queries_props_witness :
    candidate_queries "" "" = []
    ∧ "Foo" ∈ candidate_queries "Foo sp." ""
    ∧ "Foo" ≠ "" :=
  ⟨(c7_candidate_queries_props "" "").2.2.2.2 rfl rfl,
   ((c7_candidate_queries_props "Foo sp." "").2.2.2.1 "Foo").mpr ⟨by decide, by decide⟩,
   (c7_candidate_queries_props "Foo sp." "").2.1 "Foo"
     (((c7_candidate_queries_props "Foo sp." "").2.2.2.1 "Foo").mpr ⟨by decide, by decide⟩)⟩

/-- C8: synonym extraction is the pipeline "collect text values in the fixed
field-kind order (Synonym, EquivalentName, GenbankSynonym, GenbankCommonName,
CommonName, then the display names of Name entries), trim, drop empties,
deduplicate exact repeats keeping first occurrences"; in particular its
result never contains duplicates. -/
theorem c8_extract_synonyms_refines_spec (root : XmlNode) :
    extract_synonyms root = extractSynonymsSpec root
    ∧ (extract_synonyms root).Nodup :=
  ⟨extract_synonyms_eq_spec root, extract_synonyms_nodup root⟩

/-- C9: every output row has exactly the six fields, in order: the index
column, `food_com`, `food_sci`, `synonyms_open_tree_of_life`,
`synonyms_wiki_search`, `synonyms_ncbi`; the first five are copied from the
corresponding input row, only the NCBI field is computed. -/
theorem c9_output_row_shape (search : String → Option String)
    (fetch : String → List String) (fns : List String) (rows : List Row)
    (limit : Option Int) (i : Nat) (row : Row)
    (h : (pySliceTake rows limit).get? i = some row) :
    ∃ outs, (mainModel search fetch (some fns) rows limit).2 = Except.ok outs
      ∧ outs.length = (pySliceTake rows limit).length
      ∧ ∃ syn, outs.get? i = some
          [(fns.headD "", pyGet row (fns.headD "")),
           ("food_com", pyGet row "food_com"),
           ("food_sci", pyGet row "food_sci"),
           ("synonyms_open_tree_of_life", pyGet row "synonyms_open_tree_of_life"),
           ("synonyms_wiki_search", pyGet row "synonyms_wiki_search"),
           ("synonyms_ncbi", syn)] := by
  obtain ⟨outs, hok, hlen, hget⟩ := mainModel_outputs search fetch fns rows limit
  obtain ⟨syn, hsyn⟩ := hget i row h
  exact ⟨outs, hok, hlen, syn, hsyn⟩

/-- Witness for C9 on a one-row table. -/
theorem c9_output_row_shape_witness :
    ∃ outs, (mainModel searchNone fetchNone (some ["idx"]) [demoRowFull] none).2
        = Except.ok outs
      ∧ outs.length = (pySliceTake [demoRowFull] none).length
      ∧ ∃ syn, outs.get? 0 = some
          [("idx", pyGet demoRowFull "idx"),
           ("food_com", pyGet demoRowFull "food_com"),
           ("food_sci", pyGet demoRowFull "food_sci"),
           ("synonyms_open_tree_of_life", pyGet demoRowFull "synonyms_open_tree_of_life"),
           ("synonyms_wiki_search", pyGet demoRowFull "synonyms_wiki_search"),
           ("synonyms_ncbi", syn)] :=
  c9_output_row_shape searchNone fetchNone ["idx"] [demoRowFull] none 0 demoRowFull rfl

/-- C10: for every processed row, the identity key of the pre-scan (0-based
enumeration) equals the identity key recomputed in the main pass (1-based
enumeration with the index decremented), so cache lookups use the key that
stored the entry. -/
theorem c10_prescan_main_keys_agree (rows : List Row) (i : Nat) (row : Row)
    (h : rows.get? i = some row) :
    (pyEnumerate 0 rows).get? i = some (i, row)
    ∧ (pyEnumerate 1 rows).get? i = some (1 + i, row)
    ∧ prescanKey (i, row) = mainPassKey (1 + i, row) := by
  refine ⟨?_, ?_, ?_⟩
  · rw [pyEnumerate_get?, h]
    simp
  · rw [pyEnumerate_get?, h]
    rfl
  · rw [prescanKey, mainPassKey]
    have harith : 1 + i - 1 = i := by omega
    rw [harith]

/-- Witness for C10 on a one-row table. -/
theorem c10_prescan_main_keys_agree_witness :
    (pyEnumerate 0 [demoRowFull]).get? 0 = some (0, demoRowFull)
    ∧ (pyEnumerate 1 [demoRowFull]).get? 0 = some (1, demoRowFull)
    ∧ prescanKey (0, demoRowFull) = mainPassKey (1, demoRowFull) :=
  c10_prescan_main_keys_agree [demoRowFull] 0 demoRowFull rfl
